import Mathlib

/-!
Verification of the reverse proxy server's core components against its
specification: the LRU+TTL response cache (src/cache.go), the token-bucket
rate limiter (src/unnamed/part_001), the caching middleware and the
response-capturing writer (src/middleware.go), and the middleware chain
assembly in main.

Modelling conventions:
* Wall-clock time is passed explicitly to each operation (`now`), since the
  Go code reads `time.Now()` inside each method.  Cache timestamps are `Nat`
  (seconds); token-bucket arithmetic is over `ℚ`, modelling the Go `float64`
  arithmetic exactly (the claims are about the algorithm, not rounding).
* The Go cache keeps a `map[string]*list.Element` and a doubly linked list in
  sync; the map is only an index into the list, so the model keeps a single
  list of entries ordered most-recently-used first.  Map lookup `c.items[key]`
  becomes `List.find?` on the key, which agrees under the sync invariant
  that keys are unique (`CacheWF`).
-/

namespace RProxy

/-- Cached HTTP response data (struct CachedResponse, src/cache.go). -/
structure CachedResponse where
  statusCode : Nat
  headers : List (String × List String)
  body : List Nat
  createdAt : Nat
deriving Repr, DecidableEq

/-- A cache entry (struct CacheEntry, src/cache.go). -/
structure CacheEntry where
  key : String
  response : CachedResponse
  expiry : Nat
deriving Repr, DecidableEq

/-- The LRU cache with TTL (struct Cache, src/cache.go).  `lru` is ordered
most-recently-used first (front of the Go `container/list`). -/
structure Cache where
  capacity : Nat
  ttl : Nat
  lru : List CacheEntry
deriving Repr, DecidableEq

/-- NewCache (src/cache.go line 34). -/
def NewCache (capacity : Nat) (ttlSeconds : Nat) : Cache :=
  { capacity := capacity, ttl := ttlSeconds, lru := [] }

/-- Key match used for the `c.items[key]` map lookup. -/
def keyIs (key : String) : CacheEntry → Bool := fun e => e.key == key

/-- Cache.Get (src/cache.go lines 44-68): absent gives not-found; expired
(`time.Now().After(entry.Expiry)`, i.e. `now > expiry`) removes the entry and
gives not-found; otherwise the entry moves to the front and its response is
returned. -/
def Cache.Get (c : Cache) (now : Nat) (key : String) :
    Option CachedResponse × Cache :=
  match c.lru.find? (keyIs key) with
  | none => (none, c)
  | some e =>
    if now > e.expiry then
      (none, { c with lru := c.lru.eraseP (keyIs key) })
    else
      (some e.response, { c with lru := e :: c.lru.eraseP (keyIs key) })

/-- Cache.evict (src/cache.go lines 102-109): removes the back of the LRU
list when non-empty. -/
def Cache.evict (c : Cache) : Cache :=
  { c with lru := c.lru.dropLast }

/-- Cache.Set (src/cache.go lines 71-99): an existing key gets its response
replaced and its expiry reset to `now + ttl` and moves to the front; a new key
is pushed at the front and, if the length now exceeds capacity, the back is
evicted. -/
def Cache.Set (c : Cache) (now : Nat) (key : String) (response : CachedResponse) :
    Cache :=
  match c.lru.find? (keyIs key) with
  | some _ =>
    let entry : CacheEntry :=
      { key := key, response := response, expiry := now + c.ttl }
    { c with lru := entry :: c.lru.eraseP (keyIs key) }
  | none =>
    let entry : CacheEntry :=
      { key := key, response := response, expiry := now + c.ttl }
    let c1 : Cache := { c with lru := entry :: c.lru }
    if c1.lru.length > c1.capacity then c1.evict else c1

/-- Cache.Size (src/cache.go line 128). -/
def Cache.Size (c : Cache) : Nat := c.lru.length

/-- The keys currently stored, in recency order. -/
def Cache.keys (c : Cache) : List String := c.lru.map CacheEntry.key

/-- Well-formedness: the key-to-element map and the list are in sync, so each
key occurs at most once in the list. -/
def CacheWF (c : Cache) : Prop := c.keys.Nodup

/-- One client operation against the cache. -/
inductive CacheOp where
  | get (now : Nat) (key : String)
  | set (now : Nat) (key : String) (response : CachedResponse)
deriving Repr

/-- Apply one operation (the response of a Get is discarded; only the state
matters for the invariants). -/
def Cache.applyOp (c : Cache) : CacheOp → Cache
  | .get now key => (c.Get now key).2
  | .set now key response => c.Set now key response

/-- Run a sequence of operations. -/
def Cache.runOps (c : Cache) (ops : List CacheOp) : Cache :=
  ops.foldl Cache.applyOp c

theorem Cache.Get_size_le (c : Cache) (now : Nat) (key : String) :
    (c.Get now key).2.Size ≤ c.Size := by
  unfold Cache.Get
  cases hf : c.lru.find? (keyIs key) with
  | none => simp [Cache.Size]
  | some e =>
    have hmem := List.mem_of_find?_eq_some hf
    have hp := List.find?_some hf
    have hlen : (List.eraseP (keyIs key) c.lru).length = c.lru.length - 1 :=
      List.length_eraseP_of_mem hmem hp
    have hpos : 0 < c.lru.length :=
      List.length_pos.mpr (fun hnil => by simp [hnil] at hmem)
    dsimp only
    split
    · simp only [Cache.Size]
      omega
    · simp only [Cache.Size, List.length_cons]
      omega

theorem Cache.Set_size_le (c : Cache) (now : Nat) (key : String)
    (response : CachedResponse) (h : c.Size ≤ c.capacity) :
    (c.Set now key response).Size ≤ c.capacity := by
  unfold Cache.Set
  cases hf : c.lru.find? (keyIs key) with
  | some e =>
    have hmem := List.mem_of_find?_eq_some hf
    have hp := List.find?_some hf
    have hlen : (List.eraseP (keyIs key) c.lru).length = c.lru.length - 1 :=
      List.length_eraseP_of_mem hmem hp
    have hpos : 0 < c.lru.length :=
      List.length_pos.mpr (fun hnil => by simp [hnil] at hmem)
    simp only [Cache.Size] at h
    dsimp only
    simp only [Cache.Size, List.length_cons]
    omega
  | none =>
    simp only [Cache.Size] at h
    dsimp only
    split
    · simp only [Cache.evict, Cache.Size, List.length_dropLast, List.length_cons]
      omega
    · next hlen =>
      simp only [List.length_cons] at hlen
      simp only [Cache.Size, List.length_cons]
      omega

theorem Cache.applyOp_size_le (c : Cache) (op : CacheOp)
    (h : c.Size ≤ c.capacity) : (c.applyOp op).Size ≤ c.capacity := by
  cases op with
  | get now key => exact le_trans (Cache.Get_size_le c now key) h
  | set now key response => exact Cache.Set_size_le c now key response h

theorem Cache.Get_capacity (c : Cache) (now : Nat) (key : String) :
    (c.Get now key).2.capacity = c.capacity := by
  unfold Cache.Get
  cases hf : c.lru.find? (keyIs key) with
  | none => rfl
  | some e =>
    by_cases hexp : now > e.expiry <;> simp [hexp]

theorem Cache.Set_capacity (c : Cache) (now : Nat) (key : String)
    (response : CachedResponse) :
    (c.Set now key response).capacity = c.capacity := by
  unfold Cache.Set
  cases hf : c.lru.find? (keyIs key) with
  | some e => rfl
  | none =>
    by_cases hlen : c.lru.length + 1 > c.capacity <;>
      simp [hlen, Cache.evict]

theorem Cache.applyOp_capacity (c : Cache) (op : CacheOp) :
    (c.applyOp op).capacity = c.capacity := by
  cases op with
  | get now key => exact Cache.Get_capacity c now key
  | set now key response => exact Cache.Set_capacity c now key response

theorem Cache.runOps_size_le (c : Cache) (ops : List CacheOp)
    (h : c.Size ≤ c.capacity) :
    (c.runOps ops).Size ≤ (c.runOps ops).capacity := by
  induction ops generalizing c with
  | nil => simpa [Cache.runOps]
  | cons op rest ih =>
    have h1 : (c.applyOp op).Size ≤ (c.applyOp op).capacity := by
      rw [Cache.applyOp_capacity]
      exact Cache.applyOp_size_le c op h
    simpa [Cache.runOps] using ih (c.applyOp op) h1

theorem Cache.runOps_capacity (c : Cache) (ops : List CacheOp) :
    (c.runOps ops).capacity = c.capacity := by
  induction ops generalizing c with
  | nil => rfl
  | cons op rest ih =>
    simp [Cache.runOps] at ih ⊢
    rw [ih, Cache.applyOp_capacity]

theorem keyIs_eq {key : String} {e : CacheEntry} (h : keyIs key e = true) :
    e.key = key := by
  simpa [keyIs] using h

theorem perm_cons_eraseP {α : Type} (p : α → Bool) :
    ∀ (l : List α) (e : α), l.find? p = some e → (e :: l.eraseP p).Perm l := by
  intro l
  induction l with
  | nil => intro e h; simp at h
  | cons a t ih =>
    intro e h
    by_cases hpa : p a
    · rw [List.find?_cons_of_pos _ hpa] at h
      have hae : a = e := by injection h
      subst hae
      rw [List.eraseP_cons_of_pos (p := p) hpa]
    · rw [List.find?_cons_of_neg _ hpa] at h
      rw [List.eraseP_cons_of_neg (p := p) (by simpa using hpa)]
      exact (List.Perm.swap a e _).trans ((ih e h).cons a)

theorem keys_not_mem_eraseP (c : Cache) (key : String) (e : CacheEntry)
    (hwf : CacheWF c) (hf : c.lru.find? (keyIs key) = some e) :
    ∀ x ∈ c.lru.eraseP (keyIs key), x.key ≠ key := by
  intro x hx hxkey
  have hperm := perm_cons_eraseP (keyIs key) c.lru e hf
  have hkeys : ((e :: c.lru.eraseP (keyIs key)).map CacheEntry.key).Perm c.keys :=
    hperm.map CacheEntry.key
  have hnodup : ((e :: c.lru.eraseP (keyIs key)).map CacheEntry.key).Nodup :=
    (List.Perm.nodup_iff hkeys).mpr hwf
  simp only [List.map_cons, List.nodup_cons] at hnodup
  have hekey : e.key = key := keyIs_eq (List.find?_some hf)
  exact hnodup.1 (List.mem_map.mpr ⟨x, hx, hxkey.trans hekey.symm⟩)

/-- A value used to populate concrete cache scenarios. -/
def respOf (n : Nat) : CachedResponse :=
  { statusCode := 200, headers := [], body := [n], createdAt := 0 }

/-- C1: starting from a cache of capacity c with c at least 1, the size never
exceeds c under any sequence of Get and Set operations; a Set of a new key on
a full cache evicts exactly the entry at the back of the recency order (the
least recently touched by Get or Set, since Get hits and Set both move the
touched entry to the front), leaving the size at capacity; and in the concrete
scenario of capacity 3 with inserts k1, k2, k3, a Get of k1 and an insert of
k4, the key k2 is evicted while k4, k1, k3 remain, in that recency order. -/
theorem C1_lru_capacity_and_eviction :
    (∀ (cap ttl : Nat) (ops : List CacheOp), 1 ≤ cap →
      ((NewCache cap ttl).runOps ops).Size ≤ cap) ∧
    (∀ (c : Cache) (now : Nat) (key : String) (response : CachedResponse),
      1 ≤ c.capacity → c.Size = c.capacity →
      c.lru.find? (keyIs key) = none →
      (c.Set now key response).keys = key :: c.keys.dropLast ∧
      (c.Set now key response).Size = c.Size) ∧
    ((NewCache 3 600).runOps
        [CacheOp.set 0 "k1" (respOf 1), CacheOp.set 0 "k2" (respOf 2),
         CacheOp.set 0 "k3" (respOf 3), CacheOp.get 0 "k1",
         CacheOp.set 0 "k4" (respOf 4)]).keys = ["k4", "k1", "k3"] := by
  refine ⟨?_, ?_, ?_⟩
  · intro cap ttl ops _
    have h0 : (NewCache cap ttl).Size ≤ (NewCache cap ttl).capacity := by
      simp [NewCache, Cache.Size]
    have := Cache.runOps_size_le (NewCache cap ttl) ops h0
    rwa [Cache.runOps_capacity] at this
  · intro c now key response hcap hfull hnone
    have hne : c.lru ≠ [] := by
      intro hnil
      rw [Cache.Size, hnil] at hfull
      simp at hfull
      omega
    constructor
    · unfold Cache.Set
      rw [hnone]
      dsimp only
      have hgt : ({ key := key, response := response, expiry := now + c.ttl } ::
          c.lru).length > c.capacity := by
        simp only [List.length_cons]
        rw [Cache.Size] at hfull
        omega
      rw [if_pos hgt]
      simp only [Cache.evict, Cache.keys]
      rw [List.dropLast_cons_of_ne_nil hne]
      simp [List.map_dropLast]
    · unfold Cache.Set
      rw [hnone]
      dsimp only
      have hgt : ({ key := key, response := response, expiry := now + c.ttl } ::
          c.lru).length > c.capacity := by
        simp only [List.length_cons]
        rw [Cache.Size] at hfull
        omega
      rw [if_pos hgt]
      simp [Cache.evict, Cache.Size]
  · decide

/-- C1 witness: the two quantified conjuncts applied at concrete inputs. -/
theorem C1_lru_capacity_and_eviction_witness :
    (((NewCache 3 600).runOps [CacheOp.set 0 "a" (respOf 1)]).Size ≤ 3) ∧
    ((((NewCache 1 600).Set 0 "a" (respOf 1)).Set 7 "b" (respOf 2)).keys =
        "b" :: ((NewCache 1 600).Set 0 "a" (respOf 1)).keys.dropLast ∧
      (((NewCache 1 600).Set 0 "a" (respOf 1)).Set 7 "b" (respOf 2)).Size =
        ((NewCache 1 600).Set 0 "a" (respOf 1)).Size) :=
  ⟨C1_lru_capacity_and_eviction.1 3 600 [CacheOp.set 0 "a" (respOf 1)] (by decide),
   C1_lru_capacity_and_eviction.2.1 ((NewCache 1 600).Set 0 "a" (respOf 1)) 7 "b"
     (respOf 2) (by decide) (by decide) (by decide)⟩

/-- C2: a Get on a key whose stored entry has expiry strictly before now
returns not-found and removes the entry, so a subsequent Size no longer counts
it and no entry with that key remains; and a Get never returns a response
whose expiry is in the past (a response is only returned from an entry with
now at most the expiry). -/
theorem C2_ttl_expiry :
    (∀ (c : Cache) (now : Nat) (key : String) (e : CacheEntry),
      CacheWF c → c.lru.find? (keyIs key) = some e → e.expiry < now →
      (c.Get now key).1 = none ∧
      (c.Get now key).2.Size + 1 = c.Size ∧
      ∀ x ∈ (c.Get now key).2.lru, x.key ≠ key) ∧
    (∀ (c : Cache) (now : Nat) (key : String) (r : CachedResponse),
      (c.Get now key).1 = some r →
      ∃ e ∈ c.lru, e.key = key ∧ e.response = r ∧ now ≤ e.expiry) := by
  constructor
  · intro c now key e hwf hf hexp
    have hmem := List.mem_of_find?_eq_some hf
    have hlen : (List.eraseP (keyIs key) c.lru).length = c.lru.length - 1 :=
      List.length_eraseP_of_mem hmem (List.find?_some hf)
    have hpos : 0 < c.lru.length :=
      List.length_pos.mpr (fun hnil => by simp [hnil] at hmem)
    have hgt : now > e.expiry := hexp
    refine ⟨?_, ?_, ?_⟩
    · unfold Cache.Get
      rw [hf]
      dsimp only
      rw [if_pos hgt]
    · unfold Cache.Get
      rw [hf]
      dsimp only
      rw [if_pos hgt]
      simp only [Cache.Size]
      omega
    · unfold Cache.Get
      rw [hf]
      dsimp only
      rw [if_pos hgt]
      exact keys_not_mem_eraseP c key e hwf hf
  · intro c now key r hr
    unfold Cache.Get at hr
    cases hf : c.lru.find? (keyIs key) with
    | none => rw [hf] at hr; simp at hr
    | some e =>
      rw [hf] at hr
      dsimp only at hr
      by_cases hexp : now > e.expiry
      · rw [if_pos hexp] at hr; simp at hr
      · rw [if_neg hexp] at hr
        simp only [Option.some.injEq] at hr
        exact ⟨e, List.mem_of_find?_eq_some hf,
          keyIs_eq (List.find?_some hf), hr, Nat.le_of_not_lt hexp⟩

/-- A concrete one-entry cache whose entry expires at time 3. -/
def cacheExpiring : Cache :=
  { capacity := 2, ttl := 5,
    lru := [{ key := "a", response := respOf 1, expiry := 3 }] }

/-- A concrete one-entry cache whose entry expires at time 30. -/
def cacheFresh : Cache :=
  { capacity := 2, ttl := 5,
    lru := [{ key := "a", response := respOf 1, expiry := 30 }] }

/-- C2 witness: both conjuncts applied at concrete caches. -/
theorem C2_ttl_expiry_witness :
    ((cacheExpiring.Get 10 "a").1 = none ∧
      (cacheExpiring.Get 10 "a").2.Size + 1 = cacheExpiring.Size ∧
      ∀ x ∈ (cacheExpiring.Get 10 "a").2.lru, x.key ≠ "a") ∧
    (∃ e ∈ cacheFresh.lru,
      e.key = "a" ∧ e.response = respOf 1 ∧ 10 ≤ e.expiry) :=
  ⟨C2_ttl_expiry.1 cacheExpiring 10 "a"
      { key := "a", response := respOf 1, expiry := 3 }
      (by simp [CacheWF, Cache.keys, cacheExpiring]) (by decide) (by decide),
   C2_ttl_expiry.2 cacheFresh 10 "a" (respOf 1) (by decide)⟩

/-- C9: a Set of a key that is already present replaces the stored response
and resets the expiry in place, never evicts, and leaves the size and the
presence of every other key unchanged, even when the cache is at full
capacity. -/
theorem C9_set_existing_key_frame :
    ∀ (c : Cache) (now : Nat) (key : String) (response : CachedResponse)
      (e : CacheEntry),
      c.lru.find? (keyIs key) = some e →
      (c.Set now key response).Size = c.Size ∧
      (∃ x ∈ (c.Set now key response).lru,
        x.key = key ∧ x.response = response ∧ x.expiry = now + c.ttl) ∧
      (∀ k, k ≠ key →
        ((∃ x ∈ (c.Set now key response).lru, x.key = k) ↔
         (∃ x ∈ c.lru, x.key = k))) := by
  intro c now key response e hf
  have hmem := List.mem_of_find?_eq_some hf
  have hlen : (List.eraseP (keyIs key) c.lru).length = c.lru.length - 1 :=
    List.length_eraseP_of_mem hmem (List.find?_some hf)
  have hpos : 0 < c.lru.length :=
    List.length_pos.mpr (fun hnil => by simp [hnil] at hmem)
  have hset : (c.Set now key response).lru =
      { key := key, response := response, expiry := now + c.ttl } ::
        c.lru.eraseP (keyIs key) := by
    unfold Cache.Set
    rw [hf]
  refine ⟨?_, ?_, ?_⟩
  · rw [Cache.Size, Cache.Size, hset]
    simp only [List.length_cons]
    omega
  · rw [hset]
    exact ⟨_, List.mem_cons_self _ _, rfl, rfl, rfl⟩
  · intro k hk
    rw [hset]
    constructor
    · rintro ⟨x, hx, hxk⟩
      rcases List.mem_cons.mp hx with hhead | htail
      · exact absurd (show k = key by rw [← hxk, hhead]) hk
      · exact ⟨x, List.mem_of_mem_eraseP htail, hxk⟩
    · rintro ⟨x, hx, hxk⟩
      refine ⟨x, List.mem_cons_of_mem _ ?_, hxk⟩
      have hnot : ¬ (keyIs key x = true) := by
        simp only [keyIs, beq_iff_eq]
        rw [hxk]
        exact hk
      exact (List.mem_eraseP_of_neg hnot).mpr hx

/-- C9 witness: replacing the key a in a full two-entry cache. -/
theorem C9_set_existing_key_frame_witness :
    ((cacheFresh.Set 9 "a" (respOf 7)).Size = cacheFresh.Size ∧
      (∃ x ∈ (cacheFresh.Set 9 "a" (respOf 7)).lru,
        x.key = "a" ∧ x.response = respOf 7 ∧ x.expiry = 9 + cacheFresh.ttl) ∧
      (∀ k, k ≠ "a" →
        ((∃ x ∈ (cacheFresh.Set 9 "a" (respOf 7)).lru, x.key = k) ↔
         (∃ x ∈ cacheFresh.lru, x.key = k)))) :=
  C9_set_existing_key_frame cacheFresh 9 "a" (respOf 7)
    { key := "a", response := respOf 1, expiry := 30 } (by decide)

/-! Token bucket and rate limiter (src/unnamed/part_001).  The Go float64
arithmetic is modelled over the rationals; wall-clock instants are absolute
seconds, so the Go `now.Sub(tb.lastRefill).Seconds()` is `now - lastRefill`. -/

/-- The token bucket (struct TokenBucket, src/unnamed/part_001). -/
structure TokenBucket where
  tokens : ℚ
  capacity : ℚ
  refillRate : ℚ
  lastRefill : ℚ
deriving DecidableEq

/-- The min helper of src/unnamed/part_001 lines 220-225. -/
def fmin (a b : ℚ) : ℚ := if a < b then a else b

/-- NewTokenBucket (lines 20-27): the bucket starts full. -/
def NewTokenBucket (capacity refillRate now : ℚ) : TokenBucket :=
  { tokens := capacity, capacity := capacity, refillRate := refillRate,
    lastRefill := now }

/-- TokenBucket.refill (lines 45-52): add elapsed seconds times the refill
rate, clamped to capacity, and reset the refill timestamp. -/
def TokenBucket.refill (tb : TokenBucket) (now : ℚ) : TokenBucket :=
  { tb with
    tokens := fmin tb.capacity (tb.tokens + (now - tb.lastRefill) * tb.refillRate),
    lastRefill := now }

/-- TokenBucket.Allow (lines 30-42): refill, then consume one token when the
balance is at least 1.0. -/
def TokenBucket.Allow (tb : TokenBucket) (now : ℚ) : Bool × TokenBucket :=
  if 1 ≤ (tb.refill now).tokens then
    (true, { tb.refill now with tokens := (tb.refill now).tokens - 1 })
  else
    (false, tb.refill now)

/-- TokenBucket.Tokens (lines 55-61): refill, then report the balance. -/
def TokenBucket.Tokens (tb : TokenBucket) (now : ℚ) : ℚ × TokenBucket :=
  ((tb.refill now).tokens, tb.refill now)

/-- C3: Allow succeeds iff the refill-adjusted balance is at least 1.0; on
success exactly 1.0 is subtracted from that balance; on denial the balance is
left exactly at its refill-adjusted value. -/
theorem C3_allow_consumption :
    ∀ (tb : TokenBucket) (now : ℚ),
      ((tb.Allow now).1 = true ↔ 1 ≤ (tb.refill now).tokens) ∧
      ((tb.Allow now).1 = true →
        (tb.Allow now).2.tokens = (tb.refill now).tokens - 1) ∧
      ((tb.Allow now).1 = false →
        (tb.Allow now).2.tokens = (tb.refill now).tokens) := by
  intro tb now
  unfold TokenBucket.Allow
  by_cases h : 1 ≤ (tb.refill now).tokens
  · rw [if_pos h]
    exact ⟨⟨fun _ => h, fun _ => rfl⟩, fun _ => rfl, fun hfalse => by simp at hfalse⟩
  · rw [if_neg h]
    exact ⟨⟨fun htrue => by simp at htrue, fun h1 => absurd h1 h⟩,
      fun htrue => by simp at htrue, fun _ => rfl⟩

/-- A concrete drained bucket: no tokens, zero refill rate. -/
def drainedBucket : TokenBucket :=
  { tokens := 0, capacity := 5, refillRate := 0, lastRefill := 0 }

/-- C3 witness: the success conjunct at a full bucket and the denial conjunct
at a drained bucket. -/
theorem C3_allow_consumption_witness :
    (((NewTokenBucket 5 1 0).Allow 0).2.tokens =
      ((NewTokenBucket 5 1 0).refill 0).tokens - 1) ∧
    ((drainedBucket.Allow 3).2.tokens = (drainedBucket.refill 3).tokens) :=
  ⟨(C3_allow_consumption (NewTokenBucket 5 1 0) 0).2.1
      (by norm_num [TokenBucket.Allow, TokenBucket.refill, NewTokenBucket, fmin]),
   (C3_allow_consumption drainedBucket 3).2.2
      (by norm_num [TokenBucket.Allow, TokenBucket.refill, drainedBucket, fmin])⟩

/-- One observation against a bucket: an Allow, a Tokens read, or a bare
refill, each at a wall-clock instant. -/
inductive TBOp where
  | allowOp
  | tokensOp
  | refillOp
deriving Repr, DecidableEq

/-- Apply one observation at the given instant. -/
def TokenBucket.applyOp (tb : TokenBucket) : TBOp → ℚ → TokenBucket
  | .allowOp, now => (tb.Allow now).2
  | .tokensOp, now => (tb.Tokens now).2
  | .refillOp, now => tb.refill now

/-- Run a sequence of observations. -/
def TokenBucket.runOps (tb : TokenBucket) : List (TBOp × ℚ) → TokenBucket
  | [] => tb
  | (op, t) :: rest => (tb.applyOp op t).runOps rest

/-- Times in an observation sequence are nondecreasing, starting no earlier
than a given instant (the Go clock used in `time.Now()` is monotonic). -/
def timesMono : ℚ → List (TBOp × ℚ) → Prop
  | _, [] => True
  | t, (_, τ) :: rest => t ≤ τ ∧ timesMono τ rest

/-- The single-bucket invariant tracked across observations. -/
def TBInv (cap rate : ℚ) (tb : TokenBucket) : Prop :=
  0 ≤ tb.tokens ∧ tb.tokens ≤ cap ∧ tb.capacity = cap ∧ tb.refillRate = rate

theorem TokenBucket.refill_bounds (tb : TokenBucket) (now cap rate : ℚ)
    (hcap : 0 ≤ cap) (hrate : 0 ≤ rate) (hinv : TBInv cap rate tb)
    (hafter : tb.lastRefill ≤ now) :
    TBInv cap rate (tb.refill now) := by
  obtain ⟨h0, hle, hc, hr⟩ := hinv
  refine ⟨?_, ?_, hc, hr⟩
  · unfold TokenBucket.refill fmin
    dsimp only
    split
    · rw [hc]; exact hcap
    · next hns =>
      have : 0 ≤ (now - tb.lastRefill) * tb.refillRate :=
        mul_nonneg (by linarith) (by rw [hr]; exact hrate)
      linarith
  · unfold TokenBucket.refill fmin
    dsimp only
    split
    · rw [hc]
    · next hns =>
      rw [not_lt, hc] at hns
      exact hns

theorem TokenBucket.refill_lastRefill (tb : TokenBucket) (now : ℚ) :
    (tb.refill now).lastRefill = now := rfl

theorem TokenBucket.applyOp_lastRefill (tb : TokenBucket) (op : TBOp) (now : ℚ) :
    (tb.applyOp op now).lastRefill = now := by
  cases op with
  | allowOp =>
    show ((tb.Allow now).2).lastRefill = now
    unfold TokenBucket.Allow
    split <;> rfl
  | tokensOp => rfl
  | refillOp => rfl

theorem TokenBucket.applyOp_inv (tb : TokenBucket) (op : TBOp) (now cap rate : ℚ)
    (hcap : 0 ≤ cap) (hrate : 0 ≤ rate) (hinv : TBInv cap rate tb)
    (hafter : tb.lastRefill ≤ now) :
    TBInv cap rate (tb.applyOp op now) := by
  have href := TokenBucket.refill_bounds tb now cap rate hcap hrate hinv hafter
  obtain ⟨h0, hle, hc, hr⟩ := href
  cases op with
  | allowOp =>
    show TBInv cap rate (tb.Allow now).2
    unfold TokenBucket.Allow
    split
    · next h1 =>
      exact ⟨by show (0:ℚ) ≤ (tb.refill now).tokens - 1; linarith,
        by show (tb.refill now).tokens - 1 ≤ cap; linarith, hc, hr⟩
    · exact ⟨h0, hle, hc, hr⟩
  | tokensOp => exact ⟨h0, hle, hc, hr⟩
  | refillOp => exact ⟨h0, hle, hc, hr⟩

theorem TokenBucket.runOps_inv (tb : TokenBucket) (ops : List (TBOp × ℚ))
    (cap rate : ℚ) (hcap : 0 ≤ cap) (hrate : 0 ≤ rate) (hinv : TBInv cap rate tb)
    (hmono : timesMono tb.lastRefill ops) :
    TBInv cap rate (tb.runOps ops) := by
  induction ops generalizing tb with
  | nil => exact hinv
  | cons hd rest ih =>
    obtain ⟨op, t⟩ := hd
    obtain ⟨hle, hrest⟩ := hmono
    exact ih (tb.applyOp op t)
      (TokenBucket.applyOp_inv tb op t cap rate hcap hrate hinv hle)
      (by rw [TokenBucket.applyOp_lastRefill]; exact hrest)

theorem timesMono_append_left (t : ℚ) (l1 l2 : List (TBOp × ℚ))
    (h : timesMono t (l1 ++ l2)) : timesMono t l1 := by
  induction l1 generalizing t with
  | nil => trivial
  | cons hd rest ih =>
    obtain ⟨op, τ⟩ := hd
    obtain ⟨hle, hrest⟩ := h
    exact ⟨hle, ih τ hrest⟩

/-- C4: a bucket created with nonnegative capacity and refill rate starts
full, and under any interleaving of Allow, Tokens and refill observations at
nondecreasing instants, the balance stays between 0 and the capacity at every
observation point (every prefix of the sequence). -/
theorem C4_token_bounds :
    ∀ (cap rate t0 : ℚ) (ops pre suf : List (TBOp × ℚ)),
      0 ≤ cap → 0 ≤ rate → ops = pre ++ suf → timesMono t0 ops →
      (NewTokenBucket cap rate t0).tokens = cap ∧
      0 ≤ ((NewTokenBucket cap rate t0).runOps pre).tokens ∧
      ((NewTokenBucket cap rate t0).runOps pre).tokens ≤ cap := by
  intro cap rate t0 ops pre suf hcap hrate hsplit hmono
  have hpre : timesMono t0 pre := timesMono_append_left t0 pre suf (hsplit ▸ hmono)
  have hinv0 : TBInv cap rate (NewTokenBucket cap rate t0) :=
    ⟨hcap, le_refl cap, rfl, rfl⟩
  have hfin := TokenBucket.runOps_inv (NewTokenBucket cap rate t0) pre cap rate
    hcap hrate hinv0 hpre
  exact ⟨rfl, hfin.1, hfin.2.1⟩

/-- C4 witness: capacity 2, rate one half, three Allows then a late read. -/
theorem C4_token_bounds_witness :
    (NewTokenBucket 2 (1/2) 0).tokens = 2 ∧
    0 ≤ ((NewTokenBucket 2 (1/2) 0).runOps
      [(TBOp.allowOp, 0), (TBOp.allowOp, 1)]).tokens ∧
    ((NewTokenBucket 2 (1/2) 0).runOps
      [(TBOp.allowOp, 0), (TBOp.allowOp, 1)]).tokens ≤ 2 :=
  C4_token_bounds 2 (1/2) 0
    [(TBOp.allowOp, 0), (TBOp.allowOp, 1), (TBOp.tokensOp, 9)]
    [(TBOp.allowOp, 0), (TBOp.allowOp, 1)] [(TBOp.tokensOp, 9)]
    (by norm_num) (by norm_num) rfl
    (by exact ⟨by norm_num, by norm_num, by norm_num, trivial⟩)


/-- RateLimiter.Cleanup (src/unnamed/part_001 lines 127-138) acting on the
identity-to-bucket map, modelled as an association list.  The Go `&&` is
short-circuiting: `bucket.Tokens()` — which refills the bucket in place to
the current instant — is evaluated only when the idle check on the old
`lastRefill` has passed, so a retained-but-checked bucket keeps its refilled
state while a bucket failing the idle check is untouched. -/
def RateLimiter.Cleanup (buckets : List (String × TokenBucket))
    (now maxAge : ℚ) : List (String × TokenBucket) :=
  buckets.filterMap (fun kb =>
    if kb.2.lastRefill < now - maxAge then
      if kb.2.capacity ≤ (kb.2.Tokens now).1 then none
      else some (kb.1, (kb.2.Tokens now).2)
    else some kb)

theorem nodup_keys_unique {β : Type} (l : List (String × β)) (k : String)
    (x y : β) (hnd : (l.map Prod.fst).Nodup) (hx : (k, x) ∈ l)
    (hy : (k, y) ∈ l) : x = y := by
  induction l with
  | nil => simp at hx
  | cons hd rest ih =>
    simp only [List.map_cons, List.nodup_cons] at hnd
    rcases List.mem_cons.mp hx with hx1 | hx2 <;>
      rcases List.mem_cons.mp hy with hy1 | hy2
    · rw [← hx1] at hy1
      injection hy1 with _ h
      exact h.symm
    · exfalso
      apply hnd.1
      rw [← hx1]
      exact List.mem_map.mpr ⟨(k, y), hy2, rfl⟩
    · exfalso
      apply hnd.1
      rw [← hy1]
      exact List.mem_map.mpr ⟨(k, x), hx2, rfl⟩
    · exact ih hnd.2 hx2 hy2

theorem Cleanup_key_of_some (kb kb2 : String × TokenBucket) (now maxAge : ℚ)
    (h : (if kb.2.lastRefill < now - maxAge then
        if kb.2.capacity ≤ (kb.2.Tokens now).1 then none
        else some (kb.1, (kb.2.Tokens now).2)
      else some kb) = some kb2) : kb2.1 = kb.1 := by
  by_cases h1 : kb.2.lastRefill < now - maxAge
  · rw [if_pos h1] at h
    by_cases h2 : kb.2.capacity ≤ (kb.2.Tokens now).1
    · rw [if_pos h2] at h; simp at h
    · rw [if_neg h2] at h
      injection h with h
      rw [← h]
  · rw [if_neg h1] at h
    injection h with h
    rw [← h]

/-- C5: Cleanup removes the bucket stored under a key exactly when its last
refill timestamp is older than now minus maxAge and the refilled balance
reported by Tokens reaches the capacity; a bucket idle longer than maxAge but
not refilled back to full is retained. -/
theorem C5_cleanup_iff :
    ∀ (buckets : List (String × TokenBucket)) (now maxAge : ℚ) (k : String)
      (b : TokenBucket),
      (buckets.map Prod.fst).Nodup → (k, b) ∈ buckets →
      ((∀ b2, (k, b2) ∉ RateLimiter.Cleanup buckets now maxAge) ↔
        (b.lastRefill < now - maxAge ∧ b.capacity ≤ (b.refill now).tokens)) := by
  intro buckets now maxAge k b hnd hmem
  constructor
  · intro hgone
    by_contra hcond
    by_cases h1 : b.lastRefill < now - maxAge
    · by_cases h2 : b.capacity ≤ (b.refill now).tokens
      · exact hcond ⟨h1, h2⟩
      · exact hgone (b.refill now) (List.mem_filterMap.mpr ⟨(k, b), hmem, by
          dsimp only
          rw [if_pos h1, if_neg (by simpa [TokenBucket.Tokens] using h2)]
          rfl⟩)
    · exact hgone b (List.mem_filterMap.mpr ⟨(k, b), hmem, by
        dsimp only
        rw [if_neg h1]⟩)
  · rintro ⟨h1, h2⟩ b2 hin
    obtain ⟨kb, hkb, hf⟩ := List.mem_filterMap.mp hin
    obtain ⟨k1, b1⟩ := kb
    have hk1 : k1 = k :=
      (Cleanup_key_of_some (k1, b1) (k, b2) now maxAge hf).symm
    subst hk1
    have hb1 : b1 = b := nodup_keys_unique buckets k1 b1 b hnd hkb hmem
    subst hb1
    dsimp only at hf
    rw [if_pos h1, if_pos (by simpa [TokenBucket.Tokens] using h2)] at hf
    exact Option.noConfusion hf

/-- A bucket idle since time 0 whose refill rate is too slow to be full again
by time 100: it gains 100 times 1/100 = 1 token, well short of capacity 5. -/
def bIdleNotFull : TokenBucket :=
  { tokens := 0, capacity := 5, refillRate := 1/100, lastRefill := 0 }

/-- C5 witness: for the slow bucket, removal at time 100 with maxAge 50 is
equivalent to the idle-and-full condition, which fails on the fullness side,
so the bucket is retained. -/
theorem C5_cleanup_iff_witness :
    (∀ b2, ("c1", b2) ∉ RateLimiter.Cleanup [("c1", bIdleNotFull)] 100 50) ↔
      (bIdleNotFull.lastRefill < 100 - 50 ∧
        bIdleNotFull.capacity ≤ (bIdleNotFull.refill 100).tokens) :=
  C5_cleanup_iff [("c1", bIdleNotFull)] 100 50 "c1" bIdleNotFull
    (List.nodup_singleton "c1") (List.mem_singleton_self ("c1", bIdleNotFull))

/-! The middleware chain assembled in main (the file embedded in
src/integration_test.go, chain construction at lines 563-575). -/

/-- The pipeline stages.  `errorHandling` is the panic-isolation stage
(errorHandlingMiddleware); `forwarder` is the reverse proxy. -/
inductive Stage where
  | forwarder
  | logging
  | caching
  | rateLimit
  | errorHandling
  | timeout
deriving Repr, DecidableEq

/-- The chain built in main with cache and rate limiter enabled, listed
outermost first.  Wrapping a handler in a middleware prepends that stage, so
the construction order of the source (reverseProxy, then loggingMiddleware,
cachingMiddleware, rateLimitMiddleware, errorHandlingMiddleware,
timeoutMiddleware) is mirrored by successive conses. -/
def middlewareChain : List Stage :=
  let h0 := [Stage.forwarder]
  let h1 := Stage.logging :: h0
  let h2 := Stage.caching :: h1
  let h3 := Stage.rateLimit :: h2
  let h4 := Stage.errorHandling :: h3
  Stage.timeout :: h4

/-- Modelled from the spec: the stage order the specification asserts,
outermost to innermost: panic isolation, timeout, logging, rate limiting,
caching, forwarder. -/
def claimedStageOrder : List Stage :=
  [Stage.errorHandling, Stage.timeout, Stage.logging, Stage.rateLimit,
   Stage.caching, Stage.forwarder]

/-- C6 counterexample: the chain built by main is not the order the claim
states (panic isolation outermost, then timeout, with logging third). -/
theorem C6_chain_counterexample : middlewareChain ≠ claimedStageOrder := by
  decide

/-- C6 amended: the composed pipeline evaluates its stages outermost to
innermost in the order timeout, panic isolation, rate limiting, caching,
logging, forwarder. -/
theorem C6_chain_order :
    middlewareChain = [Stage.timeout, Stage.errorHandling, Stage.rateLimit,
      Stage.caching, Stage.logging, Stage.forwarder] := rfl

/-! The response-capturing writer (cachingResponseWriter, src/middleware.go
lines 13-50).  `bodyBuf` is the in-memory capture buffer `crw.body`;
`sentStatus` and `sentBody` record what is forwarded to the underlying
`http.ResponseWriter` (the wrapper forwards WriteHeader at most once). -/

structure CRWState where
  statusCode : Nat
  bodyBuf : List Nat
  written : Bool
  sentStatus : Option Nat
  sentBody : List Nat
deriving Repr, DecidableEq

/-- newCachingResponseWriter (src/middleware.go lines 22-30): status starts
at 200 (http.StatusOK), nothing written yet. -/
def newCachingResponseWriter : CRWState :=
  { statusCode := 200, bodyBuf := [], written := false,
    sentStatus := none, sentBody := [] }

/-- WriteHeader (lines 32-38): only the first call records and forwards the
code. -/
def CRWState.writeHeaderOp (s : CRWState) (code : Nat) : CRWState :=
  if s.written then s
  else { s with statusCode := code, sentStatus := some code, written := true }

/-- Write (lines 40-46): an implicit WriteHeader with the current status when
nothing was written yet, then the data goes to both the capture buffer and
the underlying writer. -/
def CRWState.writeOp (s : CRWState) (data : List Nat) : CRWState :=
  let s1 := if s.written then s else s.writeHeaderOp s.statusCode
  { s1 with bodyBuf := s1.bodyBuf ++ data, sentBody := s1.sentBody ++ data }

/-- One call against the wrapper. -/
inductive CRWOp where
  | writeHeader (code : Nat)
  | write (data : List Nat)
deriving Repr, DecidableEq

def CRWState.applyOp (s : CRWState) : CRWOp → CRWState
  | .writeHeader code => s.writeHeaderOp code
  | .write data => s.writeOp data

def CRWState.runOps (s : CRWState) (ops : List CRWOp) : CRWState :=
  ops.foldl CRWState.applyOp s

/-- Modelled from the claim's wording: the argument of the first WriteHeader
call, or 200 when a Write happens first or no call is made at all. -/
def firstHeaderStatus : List CRWOp → Nat
  | [] => 200
  | CRWOp.writeHeader code :: _ => code
  | CRWOp.write _ :: _ => 200

/-- The concatenation of all Write payloads in call order. -/
def writesConcat : List CRWOp → List Nat
  | [] => []
  | CRWOp.writeHeader _ :: rest => writesConcat rest
  | CRWOp.write data :: rest => data ++ writesConcat rest

theorem CRWState.runOps_written (s : CRWState) (hw : s.written = true) :
    ∀ ops : List CRWOp,
      (s.runOps ops).statusCode = s.statusCode ∧
      (s.runOps ops).sentStatus = s.sentStatus ∧
      (s.runOps ops).bodyBuf = s.bodyBuf ++ writesConcat ops ∧
      (s.runOps ops).sentBody = s.sentBody ++ writesConcat ops := by
  intro ops
  induction ops generalizing s with
  | nil => simp [CRWState.runOps, writesConcat]
  | cons op rest ih =>
    cases op with
    | writeHeader code =>
      have hrw : s.runOps (CRWOp.writeHeader code :: rest) = s.runOps rest := by
        show (s.applyOp (CRWOp.writeHeader code)).runOps rest = s.runOps rest
        have hstep : s.applyOp (CRWOp.writeHeader code) = s := by
          show s.writeHeaderOp code = s
          unfold CRWState.writeHeaderOp
          rw [if_pos hw]
        rw [hstep]
      rw [hrw]
      obtain ⟨h1, h2, h3, h4⟩ := ih s hw
      exact ⟨h1, h2, by rw [h3]; rfl, by rw [h4]; rfl⟩
    | write data =>
      have hrw : s.runOps (CRWOp.write data :: rest) =
          CRWState.runOps
            { s with bodyBuf := s.bodyBuf ++ data, sentBody := s.sentBody ++ data }
            rest := by
        show (s.applyOp (CRWOp.write data)).runOps rest = _
        have hstep : s.applyOp (CRWOp.write data) =
            { s with bodyBuf := s.bodyBuf ++ data,
                     sentBody := s.sentBody ++ data } := by
          show s.writeOp data = _
          unfold CRWState.writeOp
          rw [if_pos hw]
        rw [hstep]
      rw [hrw]
      obtain ⟨h1, h2, h3, h4⟩ := ih
        { s with bodyBuf := s.bodyBuf ++ data, sentBody := s.sentBody ++ data }
        hw
      refine ⟨h1, h2, ?_, ?_⟩
      · rw [h3]
        simp [writesConcat]
      · rw [h4]
        simp [writesConcat]

/-- C10: over any call sequence, the recorded status is the argument of the
first WriteHeader, or 200 when a Write comes first (or no call is made);
WriteHeader calls after the first change neither the recorded nor the
transmitted status; and the capture buffer and the transmitted body both
equal the concatenation of all Write payloads in call order. -/
theorem C10_crw_semantics :
    ∀ ops : List CRWOp,
      (newCachingResponseWriter.runOps ops).statusCode = firstHeaderStatus ops ∧
      (newCachingResponseWriter.runOps ops).bodyBuf = writesConcat ops ∧
      (newCachingResponseWriter.runOps ops).sentBody = writesConcat ops ∧
      (newCachingResponseWriter.runOps ops).sentStatus =
        (match ops with
         | [] => none
         | _ :: _ => some (firstHeaderStatus ops)) := by
  intro ops
  cases ops with
  | nil => exact ⟨rfl, rfl, rfl, rfl⟩
  | cons op rest =>
    cases op with
    | writeHeader code =>
      have hrw : newCachingResponseWriter.runOps (CRWOp.writeHeader code :: rest) =
          CRWState.runOps
            { statusCode := code, bodyBuf := [], written := true,
              sentStatus := some code, sentBody := [] }
            rest := rfl
      rw [hrw]
      obtain ⟨h1, h2, h3, h4⟩ := CRWState.runOps_written
        { statusCode := code, bodyBuf := [], written := true,
          sentStatus := some code, sentBody := [] } rfl rest
      refine ⟨h1, ?_, ?_, ?_⟩
      · rw [h3]
        simp [writesConcat, firstHeaderStatus]
      · rw [h4]
        simp [writesConcat, firstHeaderStatus]
      · rw [h2]
        rfl
    | write data =>
      have hrw : newCachingResponseWriter.runOps (CRWOp.write data :: rest) =
          CRWState.runOps
            { statusCode := 200, bodyBuf := data, written := true,
              sentStatus := some 200, sentBody := data }
            rest := rfl
      rw [hrw]
      obtain ⟨h1, h2, h3, h4⟩ := CRWState.runOps_written
        { statusCode := 200, bodyBuf := data, written := true,
          sentStatus := some 200, sentBody := data } rfl rest
      refine ⟨h1, ?_, ?_, ?_⟩
      · rw [h3]
        simp [writesConcat, firstHeaderStatus]
      · rw [h4]
        simp [writesConcat, firstHeaderStatus]
      · rw [h2]
        rfl

/-! The caching middleware (src/middleware.go lines 52-122).  HTTP header
maps are association lists from header name to the list of values, one entry
per name, mirroring Go's `map[string][]string`; textproto key
canonicalisation is the identity on the literal header names used here
("X-Cache", "Cache-Control"), so names are compared as exact strings. -/

/-- A header map: one entry per header name. -/
abbrev HeaderMap := List (String × List String)

/-- The value list stored under a name (empty when absent), the map lookup
`h[key]`. -/
def headerGetValues (h : HeaderMap) (k : String) : List String :=
  match h with
  | [] => []
  | p :: t => if p.1 == k then p.2 else headerGetValues t k

/-- Header.Get: the first value stored under the name, or the empty string. -/
def headerGet (h : HeaderMap) (k : String) : String :=
  (headerGetValues h k).headD ""

/-- Header.Set: replace the values under the name with the single value. -/
def headerSet (h : HeaderMap) (k v : String) : HeaderMap :=
  match h with
  | [] => [(k, [v])]
  | p :: t => if p.1 == k then (k, [v]) :: t else p :: headerSet t k v

/-- Header.Add: append the value to the list stored under the name. -/
def headerAdd (h : HeaderMap) (k v : String) : HeaderMap :=
  match h with
  | [] => [(k, [v])]
  | p :: t => if p.1 == k then (p.1, p.2 ++ [v]) :: t else p :: headerAdd t k v

/-- Whether the pattern is an initial run of the list. -/
def leadsWith : List Char → List Char → Bool
  | [], _ => true
  | _ :: _, [] => false
  | a :: as, b :: bs => a == b && leadsWith as bs

/-- Whether the pattern occurs as a contiguous run of the list. -/
def occursIn (pat : List Char) : List Char → Bool
  | [] => leadsWith pat []
  | b :: bs => leadsWith pat (b :: bs) || occursIn pat bs

/-- strings.Contains(s, sub): case-sensitive substring containment. -/
def strContains (s sub : String) : Bool := occursIn sub.toList s.toList

/-- The request data the caching stage consumes. -/
structure Request where
  method : String
  url : String
deriving Repr, DecidableEq

/-- generateCacheKey (src/middleware.go lines 74-76). -/
def generateCacheKey (r : Request) : String := r.method ++ "|" ++ r.url

/-- shouldCacheResponse (src/middleware.go lines 53-71): GET only, status
below 400, and no no-cache or private token in Cache-Control, read from the
live header map of the wrapped writer (crw.Header()). -/
def shouldCacheResponse (r : Request) (crw : CRWState) (hm : HeaderMap) : Bool :=
  if r.method ≠ "GET" then false
  else if 400 ≤ crw.statusCode then false
  else if strContains (headerGet hm "Cache-Control") "no-cache" ||
      strContains (headerGet hm "Cache-Control") "private" then false
  else true

/-- One action of the inner handler against the wrapped writer: set a header
on the shared live header map (crw.Header() returns the underlying map),
write the status, or write body bytes. -/
inductive InnerAct where
  | setHeader (k v : String)
  | writeHeader (code : Nat)
  | write (data : List Nat)
deriving Repr, DecidableEq

/-- Run the inner handler's actions over the shared header map and the
capturing writer state. -/
def runInner : HeaderMap × CRWState → List InnerAct → HeaderMap × CRWState
  | st, [] => st
  | (hm, s), InnerAct.setHeader k v :: rest => runInner (headerSet hm k v, s) rest
  | (hm, s), InnerAct.writeHeader code :: rest =>
    runInner (hm, s.writeHeaderOp code) rest
  | (hm, s), InnerAct.write data :: rest => runInner (hm, s.writeOp data) rest

/-- Rebuilding a client header map from a stored header multi-map by the
hit-path double loop of Add calls (src/middleware.go lines 86-90). -/
def addAllValues (acc : HeaderMap) (kv : String × List String) : HeaderMap :=
  kv.2.foldl (fun a v => headerAdd a kv.1 v) acc

/-- The observable outcome of the caching stage for one request: the status
and body transmitted to the client, the final response header map, and the
cache state afterwards. -/
structure MWResult where
  status : Nat
  headers : HeaderMap
  body : List Nat
  cache : Cache
deriving Repr

/-- cachingMiddleware (src/middleware.go lines 79-122).  On a hit the stored
headers are added to the client header map, X-Cache is set to HIT, and the
stored status and body are sent without running the inner chain.  Otherwise
the inner chain runs against the capturing wrapper; if the response should be
cached it is stored under the cache key (status, a copy of the live header
map, and the captured body) and X-Cache is set to MISS, else X-Cache is set
to BYPASS.  The client-transmitted status on the non-hit path is what the
wrapper forwarded (200 when the inner chain wrote nothing, matching
net/http's implicit 200 at handler return). -/
def cachingMiddleware (cache : Cache) (now : Nat) (r : Request)
    (inner : List InnerAct) : MWResult :=
  let cacheKey := generateCacheKey r
  match cache.Get now cacheKey with
  | (some cachedResp, cache1) =>
    { status := cachedResp.statusCode,
      headers := headerSet (cachedResp.headers.foldl addAllValues [])
        "X-Cache" "HIT",
      body := cachedResp.body,
      cache := cache1 }
  | (none, cache1) =>
    let st := runInner ([], newCachingResponseWriter) inner
    if shouldCacheResponse r st.2 st.1 then
      { status := st.2.sentStatus.getD 200,
        headers := headerSet st.1 "X-Cache" "MISS",
        body := st.2.sentBody,
        cache := cache1.Set now cacheKey
          { statusCode := st.2.statusCode, headers := st.1,
            body := st.2.bodyBuf, createdAt := now } }
    else
      { status := st.2.sentStatus.getD 200,
        headers := headerSet st.1 "X-Cache" "BYPASS",
        body := st.2.sentBody,
        cache := cache1 }

theorem headerGetValues_set_same (h : HeaderMap) (k v : String) :
    headerGetValues (headerSet h k v) k = [v] := by
  induction h with
  | nil => simp [headerSet, headerGetValues]
  | cons p t ih =>
    by_cases hp : p.1 == k
    · simp [headerSet, headerGetValues, hp]
    · simp [headerSet, headerGetValues, hp, ih]

theorem headerGet_set_same (h : HeaderMap) (k v : String) :
    headerGet (headerSet h k v) k = v := by
  rw [headerGet, headerGetValues_set_same]
  rfl

theorem headerGetValues_set_other (h : HeaderMap) (k v k2 : String)
    (hne : k2 ≠ k) : headerGetValues (headerSet h k v) k2 =
      headerGetValues h k2 := by
  induction h with
  | nil =>
    simp only [headerSet, headerGetValues]
    rw [if_neg (by simpa using fun hkk => hne hkk.symm)]
  | cons p t ih =>
    by_cases hp : p.1 == k
    · have hp2 : ¬ (k == k2) := by simpa using fun hkk => hne hkk.symm
      have hp3 : ¬ (p.1 == k2) := by
        have : p.1 = k := by simpa using hp
        simpa [this] using fun hkk => hne hkk.symm
      simp only [headerSet, hp, if_pos, headerGetValues, hp2, hp3, if_neg]
      rfl
    · simp only [headerSet, hp, if_neg, if_false, headerGetValues]
      by_cases hp2 : p.1 == k2
      · simp [headerGetValues, hp2]
      · simp [headerGetValues, hp2, ih]

theorem headerGetValues_add_same (h : HeaderMap) (k v : String) :
    headerGetValues (headerAdd h k v) k =
      headerGetValues h k ++ [v] := by
  induction h with
  | nil => simp [headerAdd, headerGetValues]
  | cons p t ih =>
    by_cases hp : p.1 == k
    · simp [headerAdd, headerGetValues, hp]
    · simp [headerAdd, headerGetValues, hp, ih]

theorem headerGetValues_add_other (h : HeaderMap) (k v k2 : String)
    (hne : k2 ≠ k) : headerGetValues (headerAdd h k v) k2 =
      headerGetValues h k2 := by
  induction h with
  | nil =>
    simp only [headerAdd, headerGetValues]
    rw [if_neg (by simpa using fun hkk => hne hkk.symm)]
  | cons p t ih =>
    by_cases hp : p.1 == k
    · simp only [headerAdd, hp, if_pos, headerGetValues]
      by_cases hp2 : p.1 == k2
      · exfalso
        exact hne (by
          have h1 : p.1 = k := by simpa using hp
          have h2 : p.1 = k2 := by simpa using hp2
          rw [← h1, h2])
      · rw [if_neg (by simpa using hp2), if_neg (by simpa using hp2)]
    · simp only [headerAdd, hp, if_neg, if_false, headerGetValues]
      by_cases hp2 : p.1 == k2
      · simp [hp2]
      · simp [hp2, ih]

theorem foldl_add_other (key k2 : String) (hne : k2 ≠ key) :
    ∀ (vs : List String) (acc : HeaderMap),
      headerGetValues (vs.foldl (fun a v => headerAdd a key v) acc) k2 =
        headerGetValues acc k2 := by
  intro vs
  induction vs with
  | nil => intro acc; rfl
  | cons v rest ih =>
    intro acc
    show headerGetValues (rest.foldl _ (headerAdd acc key v)) k2 = _
    rw [ih (headerAdd acc key v), headerGetValues_add_other acc key v k2 hne]

theorem foldl_add_same (key : String) :
    ∀ (vs : List String) (acc : HeaderMap),
      headerGetValues (vs.foldl (fun a v => headerAdd a key v) acc) key =
        headerGetValues acc key ++ vs := by
  intro vs
  induction vs with
  | nil => intro acc; simp
  | cons v rest ih =>
    intro acc
    show headerGetValues (rest.foldl _ (headerAdd acc key v)) key = _
    rw [ih (headerAdd acc key v), headerGetValues_add_same acc key v]
    simp

theorem foldl_addAll_skip (k : String) :
    ∀ (L : HeaderMap) (acc : HeaderMap), (∀ kv ∈ L, kv.1 ≠ k) →
      headerGetValues (L.foldl addAllValues acc) k = headerGetValues acc k := by
  intro L
  induction L with
  | nil => intro acc _; rfl
  | cons kv rest ih =>
    intro acc hno
    show headerGetValues (rest.foldl addAllValues (addAllValues acc kv)) k = _
    rw [ih (addAllValues acc kv) (fun x hx => hno x (List.mem_cons_of_mem kv hx))]
    exact foldl_add_other kv.1 k
      (fun hk => (hno kv (List.mem_cons_self kv rest)) hk.symm) kv.2 acc

theorem rebuild_getValues_aux (k : String) (vs : List String) :
    ∀ (stored : HeaderMap) (acc : HeaderMap),
      (stored.map Prod.fst).Nodup → (k, vs) ∈ stored →
      headerGetValues acc k = [] →
      headerGetValues (stored.foldl addAllValues acc) k = vs := by
  intro stored
  induction stored with
  | nil => intro acc _ hmem _; simp at hmem
  | cons kv rest ih =>
    intro acc hnd hmem hacc
    simp only [List.map_cons, List.nodup_cons] at hnd
    show headerGetValues (rest.foldl addAllValues (addAllValues acc kv)) k = vs
    rcases List.mem_cons.mp hmem with hhead | htail
    · have hhead2 : kv = (k, vs) := hhead.symm
      subst hhead2
      have hrest : ∀ x ∈ rest, x.1 ≠ k := by
        intro x hx hxk
        exact hnd.1 (List.mem_map.mpr ⟨x, hx, hxk⟩)
      rw [foldl_addAll_skip k rest (addAllValues acc (k, vs)) hrest]
      show headerGetValues (vs.foldl (fun a v => headerAdd a k v) acc) k = vs
      rw [foldl_add_same k vs acc, hacc]
      rfl
    · have hkne : k ≠ kv.1 := by
        intro hk
        exact hnd.1 (List.mem_map.mpr ⟨(k, vs), htail, hk⟩)
      refine ih (addAllValues acc kv) hnd.2 htail ?_
      show headerGetValues (kv.2.foldl (fun a v => headerAdd a kv.1 v) acc) k = []
      rw [foldl_add_other kv.1 k hkne kv.2 acc]
      exact hacc

theorem find?_none_of_no_key (l : List CacheEntry) (key : String)
    (h : ∀ x ∈ l, x.key ≠ key) : l.find? (keyIs key) = none :=
  List.find?_eq_none.mpr (fun x hx => by simpa [keyIs] using h x hx)

theorem Get_none_no_key (c : Cache) (now : Nat) (key : String)
    (hwf : CacheWF c) (hget : (c.Get now key).1 = none) :
    ∀ x ∈ (c.Get now key).2.lru, x.key ≠ key := by
  cases hf : c.lru.find? (keyIs key) with
  | none =>
    have hres : (c.Get now key).2 = c := by
      unfold Cache.Get
      rw [hf]
    rw [hres]
    intro x hx hxk
    exact (List.find?_eq_none.mp hf x hx) (by simpa [keyIs] using hxk)
  | some e =>
    by_cases hexp : now > e.expiry
    · have hres : (c.Get now key).2 = { c with lru := c.lru.eraseP (keyIs key) } := by
        unfold Cache.Get
        rw [hf]
        dsimp only
        rw [if_pos hexp]
      rw [hres]
      exact keys_not_mem_eraseP c key e hwf hf
    · exfalso
      have hres : (c.Get now key).1 = some e.response := by
        unfold Cache.Get
        rw [hf]
        dsimp only
        rw [if_neg hexp]
      rw [hres] at hget
      simp at hget

theorem Set_new_head (c : Cache) (now : Nat) (key : String)
    (response : CachedResponse) (hcap : 1 ≤ c.capacity)
    (hf : c.lru.find? (keyIs key) = none) :
    ∃ e ∈ (c.Set now key response).lru, e.key = key := by
  unfold Cache.Set
  rw [hf]
  dsimp only
  split
  · next hgt =>
    simp only [List.length_cons] at hgt
    have hne : c.lru ≠ [] := by
      intro hnil
      rw [hnil] at hgt
      simp at hgt
      omega
    refine ⟨{ key := key, response := response, expiry := now + c.ttl }, ?_, rfl⟩
    show _ ∈ (Cache.evict _).lru
    simp only [Cache.evict]
    rw [List.dropLast_cons_of_ne_nil hne]
    exact List.mem_cons_self _ _
  · exact ⟨{ key := key, response := response, expiry := now + c.ttl },
      List.mem_cons_self _ _, rfl⟩

theorem cachingMiddleware_hit (cache : Cache) (now : Nat) (r : Request)
    (inner : List InnerAct) (resp : CachedResponse) (cache1 : Cache)
    (hget : cache.Get now (generateCacheKey r) = (some resp, cache1)) :
    cachingMiddleware cache now r inner =
      { status := resp.statusCode,
        headers := headerSet (resp.headers.foldl addAllValues []) "X-Cache" "HIT",
        body := resp.body,
        cache := cache1 } := by
  unfold cachingMiddleware
  dsimp only
  rw [hget]

theorem cachingMiddleware_miss_pos (cache : Cache) (now : Nat) (r : Request)
    (inner : List InnerAct) (cache1 : Cache)
    (hget : cache.Get now (generateCacheKey r) = (none, cache1))
    (hsc : shouldCacheResponse r (runInner ([], newCachingResponseWriter) inner).2
      (runInner ([], newCachingResponseWriter) inner).1 = true) :
    cachingMiddleware cache now r inner =
      { status :=
          (runInner ([], newCachingResponseWriter) inner).2.sentStatus.getD 200,
        headers := headerSet (runInner ([], newCachingResponseWriter) inner).1
          "X-Cache" "MISS",
        body := (runInner ([], newCachingResponseWriter) inner).2.sentBody,
        cache := cache1.Set now (generateCacheKey r)
          { statusCode :=
              (runInner ([], newCachingResponseWriter) inner).2.statusCode,
            headers := (runInner ([], newCachingResponseWriter) inner).1,
            body := (runInner ([], newCachingResponseWriter) inner).2.bodyBuf,
            createdAt := now } } := by
  unfold cachingMiddleware
  dsimp only
  rw [hget]
  dsimp only
  rw [if_pos hsc]

theorem cachingMiddleware_miss_neg (cache : Cache) (now : Nat) (r : Request)
    (inner : List InnerAct) (cache1 : Cache)
    (hget : cache.Get now (generateCacheKey r) = (none, cache1))
    (hsc : shouldCacheResponse r (runInner ([], newCachingResponseWriter) inner).2
      (runInner ([], newCachingResponseWriter) inner).1 = false) :
    cachingMiddleware cache now r inner =
      { status :=
          (runInner ([], newCachingResponseWriter) inner).2.sentStatus.getD 200,
        headers := headerSet (runInner ([], newCachingResponseWriter) inner).1
          "X-Cache" "BYPASS",
        body := (runInner ([], newCachingResponseWriter) inner).2.sentBody,
        cache := cache1 } := by
  unfold cachingMiddleware
  dsimp only
  rw [hget]
  dsimp only
  rw [if_neg (by simp [hsc])]

theorem shouldCacheResponse_iff (r : Request) (crw : CRWState) (hm : HeaderMap) :
    shouldCacheResponse r crw hm = true ↔
      (r.method = "GET" ∧ crw.statusCode < 400 ∧
       strContains (headerGet hm "Cache-Control") "no-cache" = false ∧
       strContains (headerGet hm "Cache-Control") "private" = false) := by
  unfold shouldCacheResponse
  split_ifs with h1 h2 h3
  · simp only [Bool.false_eq_true, false_iff]
    rintro ⟨hm', _⟩
    exact h1 hm'
  · simp only [Bool.false_eq_true, false_iff]
    rintro ⟨_, hs, _⟩
    omega
  · simp only [Bool.false_eq_true, false_iff]
    rintro ⟨_, _, hb1, hb2⟩
    rcases (Bool.or_eq_true _ _).mp h3 with hc | hc
    · rw [hb1] at hc
      exact Bool.noConfusion hc
    · rw [hb2] at hc
      exact Bool.noConfusion hc
  · simp only [true_iff]
    simp only [Bool.or_eq_true, not_or] at h3
    refine ⟨not_not.mp h1, by omega, ?_, ?_⟩
    · simpa using h3.1
    · simpa using h3.2

/-- C7: on a cache hit the client receives the stored status, headers and
body together with X-Cache HIT, without the inner chain running; on the
non-hit path (capacity at least 1, well-formed cache) the client header map
carries X-Cache MISS exactly when the response was stored in the cache, and
X-Cache BYPASS otherwise. -/
theorem C7_xcache_header :
    (∀ (cache : Cache) (now : Nat) (r : Request) (inner : List InnerAct)
       (resp : CachedResponse) (cache1 : Cache),
      cache.Get now (generateCacheKey r) = (some resp, cache1) →
      (cachingMiddleware cache now r inner).status = resp.statusCode ∧
      (cachingMiddleware cache now r inner).body = resp.body ∧
      headerGet (cachingMiddleware cache now r inner).headers "X-Cache" = "HIT" ∧
      ((resp.headers.map Prod.fst).Nodup →
        ∀ k vs, (k, vs) ∈ resp.headers → k ≠ "X-Cache" →
          headerGetValues (cachingMiddleware cache now r inner).headers k = vs)) ∧
    (∀ (cache : Cache) (now : Nat) (r : Request) (inner : List InnerAct),
      CacheWF cache → 1 ≤ cache.capacity →
      (cache.Get now (generateCacheKey r)).1 = none →
      (headerGet (cachingMiddleware cache now r inner).headers "X-Cache" =
          "MISS" ∨
        headerGet (cachingMiddleware cache now r inner).headers "X-Cache" =
          "BYPASS") ∧
      (headerGet (cachingMiddleware cache now r inner).headers "X-Cache" =
          "MISS" ↔
        ∃ e ∈ (cachingMiddleware cache now r inner).cache.lru,
          e.key = generateCacheKey r)) := by
  constructor
  · intro cache now r inner resp cache1 hget
    rw [cachingMiddleware_hit cache now r inner resp cache1 hget]
    refine ⟨rfl, rfl, headerGet_set_same _ _ _, ?_⟩
    intro hnd k vs hmem hne
    dsimp only
    rw [headerGetValues_set_other _ _ _ _ hne]
    exact rebuild_getValues_aux k vs resp.headers [] hnd hmem rfl
  · intro cache now r inner hwf hcap hget
    rcases hpair : cache.Get now (generateCacheKey r) with ⟨o, c1⟩
    have ho : o = none := by rw [hpair] at hget; exact hget
    subst ho
    have hnokey : ∀ x ∈ c1.lru, x.key ≠ generateCacheKey r := by
      have h := Get_none_no_key cache now (generateCacheKey r) hwf hget
      rw [hpair] at h
      exact h
    have hfnone : c1.lru.find? (keyIs (generateCacheKey r)) = none :=
      find?_none_of_no_key _ _ hnokey
    have hc1cap : 1 ≤ c1.capacity := by
      have h := Cache.Get_capacity cache now (generateCacheKey r)
      rw [hpair] at h
      dsimp only at h
      rw [h]
      exact hcap
    by_cases hsc : shouldCacheResponse r
        (runInner ([], newCachingResponseWriter) inner).2
        (runInner ([], newCachingResponseWriter) inner).1 = true
    · rw [cachingMiddleware_miss_pos cache now r inner c1 hpair hsc]
      dsimp only
      refine ⟨Or.inl (headerGet_set_same _ _ _), ?_⟩
      rw [headerGet_set_same]
      exact iff_of_true rfl
        (Set_new_head c1 now (generateCacheKey r) _ hc1cap hfnone)
    · have hscf : shouldCacheResponse r
          (runInner ([], newCachingResponseWriter) inner).2
          (runInner ([], newCachingResponseWriter) inner).1 = false := by
        simpa using hsc
      rw [cachingMiddleware_miss_neg cache now r inner c1 hpair hscf]
      dsimp only
      refine ⟨Or.inr (headerGet_set_same _ _ _), ?_⟩
      rw [headerGet_set_same]
      refine iff_of_false (by decide) ?_
      rintro ⟨e, he, hek⟩
      exact hnokey e he hek

/-- A stored response used in concrete scenarios. -/
def respStored : CachedResponse :=
  { statusCode := 200, headers := [("Content-Type", ["application/json"])],
    body := [1, 2], createdAt := 0 }

/-- A GET request for /u. -/
def reqU : Request := { method := "GET", url := "/u" }

/-- A cache already holding the response for GET /u (expiry 50). -/
def cacheWithU : Cache :=
  { capacity := 4, ttl := 60,
    lru := [{ key := "GET|/u", response := respStored, expiry := 50 }] }

/-- An inner handler writing a 200 with a body. -/
def innerOK : List InnerAct := [InnerAct.writeHeader 200, InnerAct.write [7]]

/-- An inner handler writing a 404. -/
def inner404 : List InnerAct := [InnerAct.writeHeader 404, InnerAct.write [7]]

/-- An inner handler marking its 200 response private. -/
def innerPrivate : List InnerAct :=
  [InnerAct.setHeader "Cache-Control" "private", InnerAct.writeHeader 200,
   InnerAct.write [7]]

/-- C7 witness: the hit conjunct on a pre-populated cache and the non-hit
conjunct on an empty cache. -/
theorem C7_xcache_header_witness :
    ((cachingMiddleware cacheWithU 10 reqU []).status = respStored.statusCode ∧
      (cachingMiddleware cacheWithU 10 reqU []).body = respStored.body ∧
      headerGet (cachingMiddleware cacheWithU 10 reqU []).headers "X-Cache" =
        "HIT" ∧
      headerGetValues (cachingMiddleware cacheWithU 10 reqU []).headers
        "Content-Type" = ["application/json"]) ∧
    ((headerGet (cachingMiddleware (NewCache 4 60) 10 reqU innerOK).headers
          "X-Cache" = "MISS" ∨
       headerGet (cachingMiddleware (NewCache 4 60) 10 reqU innerOK).headers
          "X-Cache" = "BYPASS") ∧
      (headerGet (cachingMiddleware (NewCache 4 60) 10 reqU innerOK).headers
          "X-Cache" = "MISS" ↔
        ∃ e ∈ (cachingMiddleware (NewCache 4 60) 10 reqU innerOK).cache.lru,
          e.key = generateCacheKey reqU)) := by
  constructor
  · obtain ⟨h1, h2, h3, h4⟩ := C7_xcache_header.1 cacheWithU 10 reqU []
      respStored cacheWithU (by decide)
    exact ⟨h1, h2, h3,
      h4 (by decide) "Content-Type" ["application/json"] (by decide) (by decide)⟩
  · exact C7_xcache_header.2 (NewCache 4 60) 10 reqU innerOK
      (by simp [CacheWF, Cache.keys, NewCache]) (by decide) (by decide)

/-- C8: on the non-hit path a response is stored in the cache exactly when
the request method is GET, the recorded status is strictly below 400, and the
Cache-Control header value contains neither the substring no-cache nor the
substring private (case-sensitive); concretely, a POST, a GET returning 404
and a GET with Cache-Control private leave the cache empty while a plain GET
returning 200 stores one entry. -/
theorem C8_store_decision :
    (∀ (cache : Cache) (now : Nat) (r : Request) (inner : List InnerAct),
      CacheWF cache → 1 ≤ cache.capacity →
      (cache.Get now (generateCacheKey r)).1 = none →
      ((∃ e ∈ (cachingMiddleware cache now r inner).cache.lru,
          e.key = generateCacheKey r) ↔
        (r.method = "GET" ∧
         (runInner ([], newCachingResponseWriter) inner).2.statusCode < 400 ∧
         strContains (headerGet (runInner ([], newCachingResponseWriter)
           inner).1 "Cache-Control") "no-cache" = false ∧
         strContains (headerGet (runInner ([], newCachingResponseWriter)
           inner).1 "Cache-Control") "private" = false))) ∧
    (cachingMiddleware (NewCache 4 60) 0
        { method := "POST", url := "/u" } innerOK).cache.Size = 0 ∧
    (cachingMiddleware (NewCache 4 60) 0 reqU inner404).cache.Size = 0 ∧
    (cachingMiddleware (NewCache 4 60) 0 reqU innerPrivate).cache.Size = 0 ∧
    (cachingMiddleware (NewCache 4 60) 0 reqU innerOK).cache.Size = 1 := by
  refine ⟨?_, by decide, by decide, by decide, by decide⟩
  intro cache now r inner hwf hcap hget
  rcases hpair : cache.Get now (generateCacheKey r) with ⟨o, c1⟩
  have ho : o = none := by rw [hpair] at hget; exact hget
  subst ho
  have hnokey : ∀ x ∈ c1.lru, x.key ≠ generateCacheKey r := by
    have h := Get_none_no_key cache now (generateCacheKey r) hwf hget
    rw [hpair] at h
    exact h
  have hfnone : c1.lru.find? (keyIs (generateCacheKey r)) = none :=
    find?_none_of_no_key _ _ hnokey
  have hc1cap : 1 ≤ c1.capacity := by
    have h := Cache.Get_capacity cache now (generateCacheKey r)
    rw [hpair] at h
    dsimp only at h
    rw [h]
    exact hcap
  by_cases hsc : shouldCacheResponse r
      (runInner ([], newCachingResponseWriter) inner).2
      (runInner ([], newCachingResponseWriter) inner).1 = true
  · rw [cachingMiddleware_miss_pos cache now r inner c1 hpair hsc]
    dsimp only
    exact iff_of_true
      (Set_new_head c1 now (generateCacheKey r) _ hc1cap hfnone)
      ((shouldCacheResponse_iff r _ _).mp hsc)
  · have hscf : shouldCacheResponse r
        (runInner ([], newCachingResponseWriter) inner).2
        (runInner ([], newCachingResponseWriter) inner).1 = false := by
      simpa using hsc
    rw [cachingMiddleware_miss_neg cache now r inner c1 hpair hscf]
    dsimp only
    refine iff_of_false ?_ ?_
    · rintro ⟨e, he, hek⟩
      exact hnokey e he hek
    · intro hcond
      rw [(shouldCacheResponse_iff r _ _).mpr hcond] at hscf
      exact Bool.noConfusion hscf

/-- C8 witness: the store-decision equivalence at the plain GET input. -/
theorem C8_store_decision_witness :
    (∃ e ∈ (cachingMiddleware (NewCache 4 60) 0 reqU innerOK).cache.lru,
        e.key = generateCacheKey reqU) ↔
      (reqU.method = "GET" ∧
       (runInner ([], newCachingResponseWriter) innerOK).2.statusCode < 400 ∧
       strContains (headerGet (runInner ([], newCachingResponseWriter)
         innerOK).1 "Cache-Control") "no-cache" = false ∧
       strContains (headerGet (runInner ([], newCachingResponseWriter)
         innerOK).1 "Cache-Control") "private" = false) :=
  C8_store_decision.1 (NewCache 4 60) 0 reqU innerOK
    (by simp [CacheWF, Cache.keys, NewCache]) (by decide) (by decide)

end RProxy
